import Mathlib

/-!
Shallow embedding of the DataFusion string-expression kernels
(`src/rust/datafusion/src/physical_plan/string_expressions.rs`).

Rust `&str` values are modelled as `List Char` (a string is its sequence of
Unicode scalar values).  Null-aware batch rows are modelled as `Option`s;
per-row execution faults (`DataFusionError::Execution`) as `Except String`.
Machine-integer casts (`as u32`, `as usize`) are modelled explicitly by
reduction modulo `2 ^ 32` / `2 ^ 64` on `Int`.
-/

namespace StringExpr

/-! ## Definitions -/

/-- Modelled from the spec: the `unicode-segmentation` crate (external to this
repository) implements UAX #29 extended grapheme clusters.  We model a
fragment of UAX #29: characters of the Combining Diacritical Marks block
(U+0300–U+036F) carry the `Extend` property and everything else is treated
as break-property `Other`, so a cluster break occurs exactly before every
non-`Extend` character (rules GB999 and GB9).  The real `Extend` set is
larger, and the rules GB3 (CR LF), GB4–5 (controls), GB6–8 (Hangul jamo),
GB9a–b, GB11 and GB12–13 (regional indicators) are not modelled; see
`modelledChar` for the character set on which this fragment provably
coincides with full UAX #29. -/
def isCombining (c : Char) : Bool :=
  decide (0x300 ≤ c.toNat ∧ c.toNat ≤ 0x36F)

/-- The characters on which the modelled segmentation fragment agrees with
full UAX #29: printable ASCII (U+0020–U+007E, all of break-property `Other`:
no controls, CR/LF, ZWJ, Hangul jamo, regional indicators, Prepend or
SpacingMark characters lie in that range) together with the Combining
Diacritical Marks block (property `Extend`).  For strings over this set the
only applicable rules are GB9 and GB999, i.e. exactly the modelled ones. -/
def modelledChar (c : Char) : Bool :=
  decide ((0x20 ≤ c.toNat ∧ c.toNat ≤ 0x7E) ∨ (0x300 ≤ c.toNat ∧ c.toNat ≤ 0x36F))

/-- Modelled from the spec: grapheme-cluster segmentation (`graphemes(true)` /
`grapheme_indices(true)` in the source).  A break occurs before every
non-combining character; combining characters attach to the cluster on their
left (or open the string's first, "defective", cluster).  Faithful to the
real crate on strings of `modelledChar` characters; claims stated relative
to the segmentation (take/drop/flatten of clusters, cluster byte offsets)
do not depend on this restriction. -/
def graphemes : List Char → List (List Char)
  | [] => []
  | c :: rest =>
    match graphemes rest with
    | [] => [[c]]
    | [] :: gs => [c] :: gs
    | (d :: g) :: gs =>
      if isCombining d then (c :: d :: g) :: gs else [c] :: (d :: g) :: gs

/-- UTF-8 encoding of a single Unicode scalar value (as in Rust's
`char::encode_utf8` / `str::as_bytes`). -/
def utf8Bytes (c : Char) : List Nat :=
  let n := c.toNat
  if n < 0x80 then [n]
  else if n < 0x800 then [0xC0 + n / 64, 0x80 + n % 64]
  else if n < 0x10000 then
    [0xE0 + n / 4096, 0x80 + n / 64 % 64, 0x80 + n % 64]
  else
    [0xF0 + n / 262144, 0x80 + n / 4096 % 64, 0x80 + n / 64 % 64, 0x80 + n % 64]

/-- The UTF-8 byte payload of a string (Rust `str::as_bytes`). -/
def utf8Str (s : List Char) : List Nat :=
  (s.map utf8Bytes).flatten

/-- Byte length of the UTF-8 encoding of a string. -/
def utf8StrLen (s : List Char) : Nat := (utf8Str s).length

/-- `grapheme_indices(true)`: each grapheme cluster paired with the byte
offset at which it starts inside the UTF-8 payload. -/
def graphemeIndicesAux (off : Nat) : List (List Char) → List (Nat × List Char)
  | [] => []
  | g :: gs => (off, g) :: graphemeIndicesAux (off + utf8StrLen g) gs

def graphemeIndices (s : List Char) : List (Nat × List Char) :=
  graphemeIndicesAux 0 (graphemes s)

/-- Char-level model of taking the first `i` bytes of the UTF-8 payload and
re-reading them as a string (`from_utf8(&bytes[..i])`).  When `i` falls on a
character boundary — which is always the case for the offsets the kernels
use, as proved below — this is exact; a mid-character
`i` (where `from_utf8` would fail) truncates to whole characters. -/
def utf8Take : List Char → Nat → List Char
  | [], _ => []
  | _ :: _, 0 => []
  | c :: cs, i + 1 =>
    if (utf8Bytes c).length ≤ i + 1 then
      c :: utf8Take cs (i + 1 - (utf8Bytes c).length)
    else []

/-- Char-level model of dropping the first `i` bytes of the UTF-8 payload
(`from_utf8(&bytes[i..])`); see `utf8Take`. -/
def utf8Drop : List Char → Nat → List Char
  | [], _ => []
  | c :: cs, 0 => c :: cs
  | c :: cs, i + 1 =>
    if (utf8Bytes c).length ≤ i + 1 then
      utf8Drop cs (i + 1 - (utf8Bytes c).length)
    else c :: cs

/-- Rust `i64 as u32` (truncation to the low 32 bits). -/
def u32OfI64 (n : Int) : Nat := (n % (2 ^ 32 : Int)).toNat

/-- Rust `i64 as usize` (truncation to the low 64 bits). -/
def usizeOfI64 (n : Int) : Nat := (n % (2 ^ 64 : Int)).toNat

/-- Rust `core::char::from_u32`: `Some` exactly for Unicode scalar values
(below `0xD800`, or in `0xE000..=0x10FFFF`). -/
def charFromU32 (v : Nat) : Option Char :=
  if v.isValidChar then some (Char.ofNat v) else none

/-- Rust `char::to_ascii_uppercase`: map `a`–`z` to `A`–`Z`. -/
def toAsciiUpper (c : Char) : Char :=
  if 97 ≤ c.toNat ∧ c.toNat ≤ 122 then Char.ofNat (c.toNat - 32) else c

/-- Rust `char::to_ascii_lowercase`: map `A`–`Z` to `a`–`z`. -/
def toAsciiLower (c : Char) : Char :=
  if 65 ≤ c.toNat ∧ c.toNat ≤ 90 then Char.ofNat (c.toNat + 32) else c

/-- Rust `trim_start_matches` with a `&[char]` (or single-`char`) pattern:
drop leading characters that occur in `cs`. -/
def trimStartMatches (s cs : List Char) : List Char :=
  s.dropWhile fun c => cs.contains c

/-- Rust `trim_end_matches` with a `&[char]` (or single-`char`) pattern. -/
def trimEndMatches (s cs : List Char) : List Char :=
  (s.reverse.dropWhile fun c => cs.contains c).reverse

/-! ### Error messages (`DataFusionError::Execution` / `Internal`) -/

def nullCharMsg : String := "null character not permitted."

def charTooLargeMsg : String := "requested character too large for encoding."

def negLenMsg : String := "negative substring length not allowed"

def concatArityMsg : String := "concat was called with 0 arguments. It requires at least 1."

def concatWsArityMsg : String := "concat_ws was called with fewer than 2 arguments. It requires at least 2."

/-- `ascii`: code of the first character, `0` for the empty string
(`chars.next().map_or(0, |v| v as i32)`). -/
def ascii (s : List Char) : Int :=
  match s with
  | [] => 0
  | c :: _ => c.toNat

/-- `btrim` with one argument: trim ASCII spaces from both ends. -/
def btrim1 (s : List Char) : List Char :=
  trimEndMatches (trimStartMatches s [' ']) [' ']

/-- `btrim` with two arguments: trim any of `characters` from both ends. -/
def btrim2 (s characters : List Char) : List Char :=
  trimEndMatches (trimStartMatches s characters) characters

/-- `ltrim` with one argument. -/
def ltrim1 (s : List Char) : List Char := trimStartMatches s [' ']

/-- `ltrim` with two arguments. -/
def ltrim2 (s characters : List Char) : List Char := trimStartMatches s characters

/-- `rtrim` with one argument. -/
def rtrim1 (s : List Char) : List Char := trimEndMatches s [' ']

/-- `rtrim` with two arguments. -/
def rtrim2 (s characters : List Char) : List Char := trimEndMatches s characters

/-- `character_length`: number of grapheme clusters. -/
def characterLength (s : List Char) : Nat := (graphemes s).length

/-- `chr`: the character with the given code.  The `integer == 0` guard tests
the original `i64`; the value passed to `from_u32` is `integer as u32`. -/
def chrImpl (n : Int) : Except String (List Char) :=
  if n = 0 then Except.error nullCharMsg
  else
    match charFromU32 (u32OfI64 n) with
    | some c => Except.ok [c]
    | none => Except.error charTooLargeMsg

/-- `initcap` body: walk the characters carrying the
`previous_character_letter_or_number` flag. -/
def initcapGo : Bool → List Char → List Char
  | _, [] => []
  | prev, c :: cs =>
    (if prev then toAsciiLower c else toAsciiUpper c) ::
      initcapGo (decide ((65 ≤ c.toNat ∧ c.toNat ≤ 90) ∨
        (97 ≤ c.toNat ∧ c.toNat ≤ 122) ∨ (48 ≤ c.toNat ∧ c.toNat ≤ 57))) cs

/-- `initcap`: uppercase the first character of each alphanumeric run. -/
def initcap (s : List Char) : List Char := initcapGo false s

/-- `left`: `n = 0` gives the empty string; `n > 0` slices the byte payload at
the offset of `grapheme_indices(true).nth(n)` (whole string when absent);
`n < 0` slices at the offset of `grapheme_indices(true).rev().nth(|n| - 1)`
(empty string when absent). -/
def left (s : List Char) (n : Int) : List Char :=
  if n = 0 then []
  else if 0 < n then
    match (graphemeIndices s).get? n.toNat with
    | some (i, _) => utf8Take s i
    | none => s
  else
    match (graphemeIndices s).reverse.get? (n.natAbs - 1) with
    | some (i, _) => utf8Take s i
    | none => []

/-- `right`: mirror image of `left`, slicing the byte payload from offset `i`
to the end. -/
def right (s : List Char) (n : Int) : List Char :=
  if n = 0 then []
  else if 0 < n then
    match (graphemeIndices s).reverse.get? (n.toNat - 1) with
    | some (i, _) => utf8Drop s i
    | none => s
  else
    match (graphemeIndices s).get? n.natAbs with
    | some (i, _) => utf8Drop s i
    | none => []

/-- `lower` / `upper` per-string transforms (`str::to_ascii_lowercase` /
`str::to_ascii_uppercase`). -/
def lowerStr (s : List Char) : List Char := s.map toAsciiLower

def upperStr (s : List Char) : List Char := s.map toAsciiUpper

/-- The cyclically repeated fill prefix of length `k`
(`fill_chars.get(l % fill_chars.len())`; the index is always in range because
this is only used with a nonempty fill). -/
def cyclicFill (fill : List Char) (k : Nat) : List Char :=
  (List.range k).map fun l => fill.getD (l % fill.length) ' '

/-- `lpad` with two arguments (space fill). -/
def lpad2 (s : List Char) (length : Int) : List Char :=
  let len := usizeOfI64 length
  if len = 0 then []
  else
    let gs := graphemes s
    if len < gs.length then (gs.take len).flatten
    else List.replicate (len - gs.length) ' ' ++ s

/-- `lpad` with three arguments. -/
def lpad3 (s : List Char) (length : Int) (fill : List Char) : List Char :=
  let len := usizeOfI64 length
  if len = 0 then []
  else
    let gs := graphemes s
    if len < gs.length then (gs.take len).flatten
    else if fill.isEmpty then s
    else cyclicFill fill (len - gs.length) ++ s

/-- `rpad` with two arguments (space fill). -/
def rpad2 (s : List Char) (length : Int) : List Char :=
  let len := usizeOfI64 length
  if len = 0 then []
  else
    let gs := graphemes s
    if len < gs.length then (gs.take len).flatten
    else s ++ List.replicate (len - gs.length) ' '

/-- `rpad` with three arguments (note: unlike `lpad`, the source has no
explicit `length == 0` early return here). -/
def rpad3 (s : List Char) (length : Int) (fill : List Char) : List Char :=
  let len := usizeOfI64 length
  let gs := graphemes s
  if len < gs.length then (gs.take len).flatten
  else if fill.isEmpty then s
  else s ++ cyclicFill fill (len - gs.length)

/-- `repeat` (`str::repeat(number as usize)`). -/
def repeatStr (s : List Char) (number : Int) : List Char :=
  (List.replicate (usizeOfI64 number) s).flatten

/-- `reverse`: `graphemes(true).rev().collect()`. -/
def reverseStr (s : List Char) : List Char :=
  (graphemes s).reverse.flatten

/-- `substr` with two arguments. -/
def substr2 (s : List Char) (start : Int) : List Char :=
  if start ≤ 0 then s
  else
    let gs := graphemes s
    let startPos := start.toNat - 1
    if gs.length < startPos then [] else (gs.drop startPos).flatten

/-- `substr` with three arguments. -/
def substr3 (s : List Char) (start count : Int) : Except String (List Char) :=
  if count < 0 then Except.error negLenMsg
  else if start ≤ 0 then Except.ok s
  else
    let gs := graphemes s
    let startPos := start.toNat - 1
    let countN := count.toNat
    if gs.length < startPos then Except.ok []
    else if gs.length < startPos + countN then Except.ok (gs.drop startPos).flatten
    else Except.ok ((gs.drop startPos).take countN).flatten

/-- `to_hex` (`format!("{:x}", integer.to_usize().unwrap())`): lowercase hex
digits, no padding.  (`to_usize()` of a negative `i64` panics in the source;
only the non-negative case is modelled.) -/
def toHex (n : Int) : List Char := Nat.toDigits 16 n.toNat

/-! ### Dual-Mode Values (`ColumnarValue`) and the kernels exposed over them

The source dispatches on `Utf8` versus `LargeUtf8` storage width; the two
widths are value-identical (spec §2), so the model carries the string
contents only.  Non-string-typed inputs make the source return an `Internal`
error before any row is touched; the model's types exclude them. -/

inductive ColValue where
  | array : List (Option (List Char)) → ColValue
  | scalar : Option (List Char) → ColValue
  deriving DecidableEq

/-- The value a `ColumnarValue` contributes at row `i` (scalars broadcast). -/
def rowOf : ColValue → Nat → Option (List Char)
  | ColValue.array a, i => a.getD i none
  | ColValue.scalar v, _ => v

/-- `handle`: apply a unary string transform element-wise to an array, or once
to a scalar (`unary_string_function` / the `Scalar` branch). -/
def handle (op : List Char → List Char) : ColValue → ColValue
  | ColValue.array a => ColValue.array (a.map (Option.map op))
  | ColValue.scalar v => ColValue.scalar (v.map op)

/-- `lower` over a Dual-Mode Value. -/
def lower (arg : ColValue) : ColValue := handle lowerStr arg

/-- `upper` over a Dual-Mode Value. -/
def upper (arg : ColValue) : ColValue := handle upperStr arg

/-- The length of the first `Array`-shaped argument, if any
(`args.iter().filter_map(...).next()`). -/
def firstArraySize (args : List ColValue) : Option Nat :=
  (args.filterMap fun arg =>
    match arg with
    | ColValue.array a => some a.length
    | _ => none).head?

/-- One step of a batch-mode `concat` row: append the scalar value or the row
value when present, skip nulls.  (Out-of-range rows read as null; the source
only evaluates rows below the shared batch size.) -/
def concatRowStep (i : Nat) (acc : List Char) (arg : ColValue) : List Char :=
  match arg with
  | ColValue.scalar v => acc ++ v.getD []
  | ColValue.array a => acc ++ ((a.getD i none).getD [])

/-- One output row of batch-mode `concat`. -/
def concatRow (args : List ColValue) (i : Nat) : List Char :=
  args.foldl (concatRowStep i) []

/-- One step of scalar-mode `concat` over the `Option` accumulator
(non-scalar arguments are unreachable on this path and are skipped, as the
`unreachable!` arm never runs). -/
def concatScalarsStep (acc : Option (List Char)) (arg : ColValue) : Option (List Char) :=
  match acc with
  | some inner =>
    some (match arg with
      | ColValue.scalar (some v) => inner ++ v
      | _ => inner)
  | none => none

/-- Scalar-mode `concat`: fold starting from `Some ""`. -/
def concatScalars (args : List ColValue) : Option (List Char) :=
  args.foldl concatScalarsStep (some [])

/-- `concat`: 0 arguments is an internal error; with an `Array` argument of
length `size` produce a `size`-row array whose every row is
`Some(concatRow ..)`; with only scalars produce a scalar. -/
def concat (args : List ColValue) : Except String ColValue :=
  if args.isEmpty then Except.error concatArityMsg
  else
    match firstArraySize args with
    | some size =>
      Except.ok (ColValue.array ((List.range size).map fun i => some (concatRow args i)))
    | none => Except.ok (ColValue.scalar (concatScalars args))

/-- The `concat_ws` inner loop over the non-separator arguments of one row:
a non-null argument contributes its value, followed by the separator whenever
the argument is not in the last position. -/
def concatWsLoop (sep : List Char) : List (Option (List Char)) → List Char
  | [] => []
  | none :: rest => concatWsLoop sep rest
  | some v :: rest => v ++ (if rest.isEmpty then [] else sep) ++ concatWsLoop sep rest

/-- One row of `concat_ws`: a null separator nulls the row
(`x.map(|sep| ...)`); otherwise run the loop. -/
def concat_ws (sep : Option (List Char)) (args : List (Option (List Char))) :
    Option (List Char) :=
  sep.map fun s => concatWsLoop s args

/-! ### Per-row null propagation wrappers, with the match shape of the source -/

def asciiRow (string : Option (List Char)) : Option Int := string.map ascii

def btrim1Row (string : Option (List Char)) : Option (List Char) := string.map btrim1

def btrim2Row : Option (List Char) → Option (List Char) → Option (List Char)
  | none, _ => none
  | _, none => none
  | some s, some characters => some (btrim2 s characters)

def ltrim1Row (string : Option (List Char)) : Option (List Char) := string.map ltrim1

def ltrim2Row : Option (List Char) → Option (List Char) → Option (List Char)
  | none, _ => none
  | _, none => none
  | some s, some characters => some (ltrim2 s characters)

def rtrim1Row (string : Option (List Char)) : Option (List Char) := string.map rtrim1

def rtrim2Row : Option (List Char) → Option (List Char) → Option (List Char)
  | none, _ => none
  | _, none => none
  | some s, some characters => some (rtrim2 s characters)

def characterLengthRow (string : Option (List Char)) : Option Nat :=
  string.map characterLength

/-- `chr` row: `integer.map(...).transpose()` turns a null input into `Ok(None)`
and a fault into a whole-call error. -/
def chrRow : Option Int → Except String (Option (List Char))
  | none => Except.ok none
  | some n => (chrImpl n).map some

def initcapRow (string : Option (List Char)) : Option (List Char) := string.map initcap

def leftRow : Option (List Char) → Option Int → Option (List Char)
  | none, _ => none
  | _, none => none
  | some s, some n => some (left s n)

def rightRow : Option (List Char) → Option Int → Option (List Char)
  | none, _ => none
  | _, none => none
  | some s, some n => some (right s n)

def lpad2Row : Option (List Char) → Option Int → Option (List Char)
  | none, _ => none
  | _, none => none
  | some s, some length => some (lpad2 s length)

def lpad3Row : Option (List Char) → Option Int → Option (List Char) → Option (List Char)
  | none, _, _ => none
  | _, none, _ => none
  | _, _, none => none
  | some s, some length, some fill => some (lpad3 s length fill)

def rpad2Row : Option (List Char) → Option Int → Option (List Char)
  | none, _ => none
  | _, none => none
  | some s, some length => some (rpad2 s length)

def rpad3Row : Option (List Char) → Option Int → Option (List Char) → Option (List Char)
  | none, _, _ => none
  | _, none, _ => none
  | _, _, none => none
  | some s, some length, some fill => some (rpad3 s length fill)

def repeatRow : Option (List Char) → Option Int → Option (List Char)
  | none, _ => none
  | _, none => none
  | some s, some number => some (repeatStr s number)

def reverseRow (string : Option (List Char)) : Option (List Char) :=
  string.map reverseStr

def substr2Row : Option (List Char) → Option Int → Option (List Char)
  | none, _ => none
  | _, none => none
  | some s, some start => some (substr2 s start)

def substr3Row : Option (List Char) → Option Int → Option Int →
    Except String (Option (List Char))
  | none, _, _ => Except.ok none
  | _, none, _ => Except.ok none
  | _, _, none => Except.ok none
  | some s, some start, some count => (substr3 s start count).map some

def toHexRow (integer : Option Int) : Option (List Char) := integer.map toHex

/-- The "equivalent scalar input" of a Dual-Mode Value: a one-row batch
`[x]` corresponds to the scalar `x`. -/
def scalarize : ColValue → ColValue
  | ColValue.array a => ColValue.scalar (a.getD 0 none)
  | ColValue.scalar v => ColValue.scalar v

/-- Every `Array`-shaped argument is a one-row batch. -/
def allArraysOneRow (args : List ColValue) : Bool :=
  args.all fun arg =>
    match arg with
    | ColValue.array a => a.length == 1
    | _ => true

/-- The string is empty or starts with a non-combining character (no
"defective" leading combining sequence). -/
def headNotCombining (s : List Char) : Bool :=
  match s with
  | [] => true
  | c :: _ => !isCombining c

/-- The first cluster of a segmentation, if any, starts non-combining. -/
def headsOk : List (List Char) → Prop
  | [] => True
  | g :: _ => ∃ d t, g = d :: t ∧ isCombining d = false

/-! ## Theorems -/

theorem flatten_graphemes (s : List Char) : (graphemes s).flatten = s := by
  induction s with
  | nil => rfl
  | cons c rest ih =>
    rw [graphemes]
    rcases h : graphemes rest with _ | ⟨_ | ⟨d, g⟩, gs⟩ <;> rw [h] at ih
    · simpa using ih.symm ▸ rfl
    · simpa using ih.symm ▸ rfl
    · by_cases hd : isCombining d = true <;>
        simp [hd, List.flatten] <;> simpa using ih

theorem graphemes_eq_nil_iff (s : List Char) : graphemes s = [] ↔ s = [] := by
  constructor
  · intro h
    have := flatten_graphemes s
    rw [h] at this
    simpa using this.symm
  · rintro rfl; rfl

theorem utf8Str_append (a b : List Char) :
    utf8Str (a ++ b) = utf8Str a ++ utf8Str b := by
  simp [utf8Str]

theorem one_le_length_utf8Bytes (c : Char) : 1 ≤ (utf8Bytes c).length := by
  simp only [utf8Bytes]
  split <;> [skip; split] <;> [simp; skip; split] <;> simp

theorem length_graphemeIndicesAux (off : Nat) (gs : List (List Char)) :
    (graphemeIndicesAux off gs).length = gs.length := by
  induction gs generalizing off with
  | nil => rfl
  | cons g gs ih => simp [graphemeIndicesAux, ih]

theorem length_graphemeIndices (s : List Char) :
    (graphemeIndices s).length = (graphemes s).length :=
  length_graphemeIndicesAux 0 (graphemes s)

theorem get?_graphemeIndicesAux (off : Nat) (gs : List (List Char)) (k : Nat) :
    (graphemeIndicesAux off gs).get? k =
      (gs.get? k).map fun g => (off + utf8StrLen (gs.take k).flatten, g) := by
  induction gs generalizing off k with
  | nil => simp [graphemeIndicesAux]
  | cons g gs ih =>
    cases k with
    | zero => simp [graphemeIndicesAux, utf8StrLen, utf8Str]
    | succ k =>
      simp only [graphemeIndicesAux, List.get?, ih, List.take, List.get?_cons_succ]
      cases gs.get? k <;>
        simp [utf8StrLen, utf8Str_append, Nat.add_assoc]

theorem get?_graphemeIndices (s : List Char) (k : Nat) :
    (graphemeIndices s).get? k =
      ((graphemes s).get? k).map
        fun g => (utf8StrLen ((graphemes s).take k).flatten, g) := by
  simpa using get?_graphemeIndicesAux 0 (graphemes s) k

theorem utf8Take_append (p q : List Char) :
    utf8Take (p ++ q) (utf8StrLen p) = p := by
  induction p with
  | nil =>
    cases q <;> rfl
  | cons c p ih =>
    have h1 : 1 ≤ (utf8Bytes c).length := one_le_length_utf8Bytes c
    have hlen : utf8StrLen (c :: p) = (utf8Bytes c).length + utf8StrLen p := by
      simp [utf8StrLen, utf8Str]
    rcases Nat.exists_eq_add_of_le h1 with ⟨m, hm⟩
    have hpos : utf8StrLen (c :: p) = (utf8StrLen p + m) + 1 := by omega
    rw [List.cons_append, hpos, utf8Take]
    have hle : (utf8Bytes c).length ≤ utf8StrLen p + m + 1 := by omega
    rw [if_pos hle]
    have : utf8StrLen p + m + 1 - (utf8Bytes c).length = utf8StrLen p := by omega
    rw [this, ih]

theorem utf8Drop_append (p q : List Char) :
    utf8Drop (p ++ q) (utf8StrLen p) = q := by
  induction p with
  | nil =>
    cases q <;> rfl
  | cons c p ih =>
    have h1 : 1 ≤ (utf8Bytes c).length := one_le_length_utf8Bytes c
    have hlen : utf8StrLen (c :: p) = (utf8Bytes c).length + utf8StrLen p := by
      simp [utf8StrLen, utf8Str]
    rcases Nat.exists_eq_add_of_le h1 with ⟨m, hm⟩
    have hpos : utf8StrLen (c :: p) = (utf8StrLen p + m) + 1 := by omega
    rw [List.cons_append, hpos, utf8Drop]
    have hle : (utf8Bytes c).length ≤ utf8StrLen p + m + 1 := by omega
    rw [if_pos hle]
    have : utf8StrLen p + m + 1 - (utf8Bytes c).length = utf8StrLen p := by omega
    rw [this, ih]

theorem toNat_ofNat_of_valid {n : Nat} (h : n.isValidChar) :
    (Char.ofNat n).toNat = n := by
  rw [Char.ofNat, dif_pos h]
  rfl

/-- C1: the claim says `concat_ws` never emits a trailing separator (in
particular when the last argument is null at a row).  Evaluating the code's
row function refutes this: with separator `","` and arguments `'a', NULL` the
result is `"a,"` — the separator follows the last non-null piece because the
null argument occupies the last position.  The other parts of the claim do
hold: a null separator nulls the whole row, and interior nulls are skipped
without doubling the separator. -/
theorem c1_concat_ws_trailing_separator :
    concat_ws (some [',']) [some ['a'], none] = some ['a', ','] ∧
    concat_ws none [some ['a'], none, some ['b'], some ['c']] = none ∧
    concat_ws (some [',']) [some ['a'], none, some ['b']] = some ['a', ',', 'b'] :=
  ⟨rfl, rfl, rfl⟩

/-- C2: the claim says every input that is not a valid Unicode code point —
including every value at or above `2 ^ 32` — raises an execution fault.
Evaluating the code refutes this: `chr` truncates the `i64` to a `u32`
(`integer as u32`) before mapping it, so `chr(2 ^ 32)` yields the NUL-character
string (which the function's own documentation says text cannot store) and
`chr(2 ^ 32 + 65)` yields `"A"`.  The in-range parts of the claim hold:
`chr(0)` and surrogate/too-large 32-bit values fault, `chr(128175)` is `"💯"`. -/
theorem c2_chr_truncation :
    chrImpl 4294967296 = Except.ok [Char.ofNat 0] ∧
    chrImpl 4294967361 = Except.ok ['A'] ∧
    chrImpl 0 = Except.error nullCharMsg ∧
    chrImpl 128175 = Except.ok ['💯'] ∧
    chrImpl 55296 = Except.error charTooLargeMsg ∧
    chrImpl 1114112 = Except.error charTooLargeMsg :=
  ⟨rfl, rfl, rfl, rfl, rfl, rfl⟩

/-- C3: for `substr` with non-null inputs: a negative explicit count raises
the execution fault; otherwise `start <= 0` yields the whole string; a start
position beyond the string's grapheme length yields the empty string; and
`start + count` beyond the string length clamps to the remainder
`graphemes[start_pos..]`. -/
theorem c3_substr_edge_cases (s : List Char) (start count : Int) :
    (count < 0 → substr3 s start count = Except.error negLenMsg) ∧
    (0 ≤ count → start ≤ 0 → substr3 s start count = Except.ok s) ∧
    (start ≤ 0 → substr2 s start = s) ∧
    (0 < start → (graphemes s).length < start.toNat → substr2 s start = []) ∧
    (0 ≤ count → 0 < start → (graphemes s).length < start.toNat →
      substr3 s start count = Except.ok []) ∧
    (0 ≤ count → 0 < start → (graphemes s).length < start.toNat - 1 + count.toNat →
      substr3 s start count = Except.ok ((graphemes s).drop (start.toNat - 1)).flatten) := by
  refine ⟨?_, ?_, ?_, ?_, ?_, ?_⟩
  · intro h
    simp [substr3, h]
  · intro hc hs
    simp [substr3, hs, Int.not_lt.mpr hc]
  · intro hs
    simp [substr2, hs]
  · intro hs hlen
    have hs' : ¬ start ≤ 0 := by omega
    simp only [substr2, if_neg hs']
    split
    · rfl
    · rename_i hnot
      have : (graphemes s).length ≤ start.toNat - 1 := by omega
      simp [List.drop_eq_nil_of_le this]
  · intro hc hs hlen
    have hs' : ¬ start ≤ 0 := by omega
    have hstart1 : 1 ≤ start.toNat := by omega
    simp only [substr3, if_neg (Int.not_lt.mpr hc), if_neg hs']
    split
    · rfl
    · rename_i hnot
      have hge : start.toNat - 1 = (graphemes s).length := by omega
      split
      · simp [List.drop_eq_nil_of_le (Nat.le_of_eq hge.symm)]
      · rename_i hnot2
        have hcz : count.toNat = 0 := by omega
        simp [hcz, List.take_zero]
  · intro hc hs hlen
    have hs' : ¬ start ≤ 0 := by omega
    simp only [substr3, if_neg (Int.not_lt.mpr hc), if_neg hs']
    split
    · rename_i hbig
      have : (graphemes s).length ≤ start.toNat - 1 := by omega
      simp [List.drop_eq_nil_of_le this]
    · rfl

/-- C3 witness: `substr('alphabet', 3, -1)` faults; `substr('alphabet', 30)`
is the empty string; `substr('alphabet', 0)` is the whole string. -/
theorem c3_substr_witness :
    ((-1 : Int) < 0 ∧
      substr3 ("alphabet".toList) 3 (-1) = Except.error negLenMsg) ∧
    (0 < (30 : Int) ∧ (graphemes ("alphabet".toList)).length < (30 : Int).toNat ∧
      substr2 ("alphabet".toList) 30 = []) ∧
    ((0 : Int) ≤ 0 ∧ substr2 ("alphabet".toList) 0 = "alphabet".toList) :=
  ⟨⟨by decide, (c3_substr_edge_cases ("alphabet".toList) 3 (-1)).1 (by decide)⟩,
   ⟨by decide, by decide,
     (c3_substr_edge_cases ("alphabet".toList) 30 0).2.2.2.1 (by decide) (by decide)⟩,
   ⟨by decide, (c3_substr_edge_cases ("alphabet".toList) 0 0).2.2.1 (by decide)⟩⟩

/-! ### Helpers for `concat` -/

theorem foldl_concatScalarsStep_some (args : List ColValue) (acc : List Char) :
    ∃ w, args.foldl concatScalarsStep (some acc) = some w := by
  induction args generalizing acc with
  | nil => exact ⟨acc, rfl⟩
  | cons arg args ih =>
    simp only [List.foldl_cons, concatScalarsStep]
    exact ih _

theorem firstArraySize_map_scalarize (args : List ColValue) :
    firstArraySize (args.map scalarize) = none := by
  induction args with
  | nil => rfl
  | cons arg args ih =>
    cases arg <;> simpa [firstArraySize, scalarize, List.filterMap_cons] using ih

theorem map_scalarize_of_firstArraySize_none (args : List ColValue)
    (h : firstArraySize args = none) : args.map scalarize = args := by
  induction args with
  | nil => rfl
  | cons arg args ih =>
    cases arg with
    | array a => simp [firstArraySize, List.filterMap_cons] at h
    | scalar v =>
      simp only [firstArraySize, List.filterMap_cons] at h
      simp [scalarize, ih h]

theorem firstArraySize_eq_one (args : List ColValue) (size : Nat)
    (hone : allArraysOneRow args = true) (h : firstArraySize args = some size) :
    size = 1 := by
  induction args with
  | nil => simp [firstArraySize] at h
  | cons arg args ih =>
    simp only [allArraysOneRow, List.all_cons, Bool.and_eq_true] at hone
    cases arg with
    | array a =>
      simp only [firstArraySize, List.filterMap_cons, List.head?] at h
      have h1 : a.length = 1 := by simpa using hone.1
      injection h with h2
      omega
    | scalar v =>
      simp only [firstArraySize, List.filterMap_cons] at h
      exact ih (by simpa [allArraysOneRow] using hone.2) h

theorem scalarize_fold (args : List ColValue) (acc : List Char)
    (h : allArraysOneRow args = true) :
    (args.map scalarize).foldl concatScalarsStep (some acc) =
      some (args.foldl (concatRowStep 0) acc) := by
  induction args generalizing acc with
  | nil => rfl
  | cons arg args ih =>
    simp only [allArraysOneRow, List.all_cons, Bool.and_eq_true] at h
    have htail : allArraysOneRow args = true := by
      simpa [allArraysOneRow] using h.2
    cases arg with
    | scalar v =>
      cases v <;>
        simp [scalarize, concatScalarsStep, concatRowStep, ih _ htail]
    | array a =>
      have hlen : a.length = 1 := by simpa using h.1
      obtain ⟨x, rfl⟩ : ∃ x, a = [x] := by
        match a, hlen with
        | [x], _ => exact ⟨x, rfl⟩
      cases x <;>
        simp [scalarize, concatScalarsStep, concatRowStep, List.getD, ih _ htail]

/-- C10: `concat` never produces a null output: in batch mode every output
row is `Some` (the empty string when all arguments are null at that row), and
in all-scalar mode the result is a non-null scalar (the empty string when all
scalar arguments are null). -/
theorem c10_concat_never_null (args : List ColValue)
    (rows : List (Option (List Char))) (v : Option (List Char)) :
    (concat args = Except.ok (ColValue.array rows) → ∀ r ∈ rows, ∃ w, r = some w) ∧
    (concat args = Except.ok (ColValue.scalar v) → ∃ w, v = some w) ∧
    concat [ColValue.array [none]] = Except.ok (ColValue.array [some []]) ∧
    concat [ColValue.scalar none, ColValue.scalar none] =
      Except.ok (ColValue.scalar (some [])) := by
  refine ⟨?_, ?_, rfl, rfl⟩
  · intro h r hr
    unfold concat at h
    by_cases he : args.isEmpty
    · simp [he] at h
    · rw [if_neg (by simpa using he)] at h
      cases hfa : firstArraySize args with
      | none => rw [hfa] at h; simp at h
      | some size =>
        rw [hfa] at h
        simp only [Except.ok.injEq, ColValue.array.injEq] at h
        rw [← h] at hr
        obtain ⟨i, _, rfl⟩ := List.mem_map.mp hr
        exact ⟨concatRow args i, rfl⟩
  · intro h
    unfold concat at h
    by_cases he : args.isEmpty
    · simp [he] at h
    · rw [if_neg (by simpa using he)] at h
      cases hfa : firstArraySize args with
      | none =>
        rw [hfa] at h
        simp only [Except.ok.injEq, ColValue.scalar.injEq] at h
        obtain ⟨w, hw⟩ := foldl_concatScalarsStep_some args []
        exact ⟨w, by rw [← h]; exact hw⟩
      | some size => rw [hfa] at h; simp at h

/-- C10 witness: instantiate the batch half at a batch whose only row has all
arguments null, and the scalar half at all-null scalars. -/
theorem c10_concat_never_null_witness :
    (concat [ColValue.array [none], ColValue.scalar none] =
        Except.ok (ColValue.array [some []]) ∧
      ∀ r ∈ [(some [] : Option (List Char))], ∃ w, r = some w) ∧
    (concat [ColValue.scalar none] = Except.ok (ColValue.scalar (some [])) ∧
      ∃ w, (some [] : Option (List Char)) = some w) :=
  ⟨⟨rfl, (c10_concat_never_null [ColValue.array [none], ColValue.scalar none]
      [some []] none).1 rfl⟩,
   ⟨rfl, (c10_concat_never_null [ColValue.scalar none] [] (some [])).2.1 rfl⟩⟩

/-- C7: scalar/batch equivalence.  For the shared unary dispatch (`handle`,
used by `upper`/`lower`), a one-row batch and the equivalent scalar give the
same row value.  For `concat`, any non-empty argument list whose arrays are
all one-row batches gives, at row 0, the same value (always non-null) as the
fully scalarized call. -/
theorem c7_scalar_batch_equivalence :
    (∀ (op : List Char → List Char) (x : Option (List Char)),
      rowOf (handle op (ColValue.array [x])) 0 = rowOf (handle op (ColValue.scalar x)) 0) ∧
    (∀ args : List ColValue, args ≠ [] → allArraysOneRow args = true →
      ∃ r r', concat args = Except.ok r ∧
        concat (args.map scalarize) = Except.ok r' ∧
        rowOf r 0 = rowOf r' 0) := by
  constructor
  · intro op x
    rfl
  · intro args hne hone
    have he : args.isEmpty = false := by
      cases args with
      | nil => exact absurd rfl hne
      | cons a l => rfl
    have he' : (args.map scalarize).isEmpty = false := by
      cases args with
      | nil => exact absurd rfl hne
      | cons a l => rfl
    cases hfa : firstArraySize args with
    | none =>
      refine ⟨ColValue.scalar (concatScalars args),
        ColValue.scalar (concatScalars args), ?_, ?_, rfl⟩
      · unfold concat
        rw [if_neg (by simp [he]), hfa]
      · unfold concat
        rw [if_neg (by simp [he']), firstArraySize_map_scalarize,
          map_scalarize_of_firstArraySize_none args hfa]
    | some size =>
      have hsize : size = 1 := firstArraySize_eq_one args size hone hfa
      subst hsize
      refine ⟨ColValue.array [some (concatRow args 0)],
        ColValue.scalar (some (concatRow args 0)), ?_, ?_, rfl⟩
      · unfold concat
        rw [if_neg (by simp [he]), hfa]
        rfl
      · unfold concat
        rw [if_neg (by simp [he']), firstArraySize_map_scalarize]
        have := scalarize_fold args [] hone
        simp only [concatScalars, concatRow] at this ⊢
        rw [this]

/-- C7 witness: a mixed one-row-batch/scalar `concat` call and a `handle`
call, both instantiated concretely. -/
theorem c7_scalar_batch_equivalence_witness :
    rowOf (handle upperStr (ColValue.array [some ['a']])) 0 =
      rowOf (handle upperStr (ColValue.scalar (some ['a']))) 0 ∧
    ([ColValue.array [some ['a', 'b']], ColValue.scalar (some ['c'])] ≠ [] ∧
      allArraysOneRow [ColValue.array [some ['a', 'b']], ColValue.scalar (some ['c'])] = true ∧
      ∃ r r',
        concat [ColValue.array [some ['a', 'b']], ColValue.scalar (some ['c'])] =
          Except.ok r ∧
        concat ([ColValue.array [some ['a', 'b']],
          ColValue.scalar (some ['c'])].map scalarize) = Except.ok r' ∧
        rowOf r 0 = rowOf r' 0) :=
  ⟨c7_scalar_batch_equivalence.1 upperStr (some ['a']),
   ⟨by decide, rfl,
    c7_scalar_batch_equivalence.2
      [ColValue.array [some ['a', 'b']], ColValue.scalar (some ['c'])]
      (by decide) rfl⟩⟩

theorem rowOf_handle_array (op : List Char → List Char)
    (a : List (Option (List Char))) (i : Nat) :
    rowOf (handle op (ColValue.array a)) i = Option.map op (a.getD i none) := by
  simp only [rowOf, handle, List.getD_eq_getElem?_getD, List.getElem?_map]
  cases a[i]? with
  | none => rfl
  | some v => cases v <;> rfl

/-- C6: the "null-in implies null-out" policy.  For every listed kernel, a
null at any required input position makes the row's output null (or, for the
fallible kernels `chr`/`substr`, `Ok(None)`), regardless of the other
arguments' values.  `lower`/`upper` go through the shared `handle` dispatch:
a null scalar stays null and a null array row stays null. -/
theorem c6_null_in_null_out :
    asciiRow none = none ∧
    (btrim1Row none = none ∧ (∀ x, btrim2Row none x = none) ∧
      (∀ x, btrim2Row x none = none)) ∧
    (ltrim1Row none = none ∧ (∀ x, ltrim2Row none x = none) ∧
      (∀ x, ltrim2Row x none = none)) ∧
    (rtrim1Row none = none ∧ (∀ x, rtrim2Row none x = none) ∧
      (∀ x, rtrim2Row x none = none)) ∧
    characterLengthRow none = none ∧
    chrRow none = Except.ok none ∧
    initcapRow none = none ∧
    ((∀ n, leftRow none n = none) ∧ (∀ x, leftRow x none = none)) ∧
    ((∀ n, rightRow none n = none) ∧ (∀ x, rightRow x none = none)) ∧
    (lower (ColValue.scalar none) = ColValue.scalar none ∧
      upper (ColValue.scalar none) = ColValue.scalar none ∧
      (∀ a i, a.getD i none = none →
        rowOf (lower (ColValue.array a)) i = none) ∧
      (∀ a i, a.getD i none = none →
        rowOf (upper (ColValue.array a)) i = none)) ∧
    ((∀ n, lpad2Row none n = none) ∧ (∀ x, lpad2Row x none = none) ∧
      (∀ n f, lpad3Row none n f = none) ∧ (∀ x f, lpad3Row x none f = none) ∧
      (∀ x n, lpad3Row x n none = none)) ∧
    ((∀ n, rpad2Row none n = none) ∧ (∀ x, rpad2Row x none = none) ∧
      (∀ n f, rpad3Row none n f = none) ∧ (∀ x f, rpad3Row x none f = none) ∧
      (∀ x n, rpad3Row x n none = none)) ∧
    ((∀ n, repeatRow none n = none) ∧ (∀ x, repeatRow x none = none)) ∧
    reverseRow none = none ∧
    ((∀ n, substr2Row none n = none) ∧ (∀ x, substr2Row x none = none) ∧
      (∀ n c, substr3Row none n c = Except.ok none) ∧
      (∀ x c, substr3Row x none c = Except.ok none) ∧
      (∀ x n, substr3Row x n none = Except.ok none)) ∧
    toHexRow none = none := by
  refine ⟨rfl, ⟨rfl, ?_, ?_⟩, ⟨rfl, ?_, ?_⟩, ⟨rfl, ?_, ?_⟩, rfl, rfl, rfl,
    ⟨?_, ?_⟩, ⟨?_, ?_⟩, ⟨rfl, rfl, ?_, ?_⟩,
    ⟨?_, ?_, ?_, ?_, ?_⟩, ⟨?_, ?_, ?_, ?_, ?_⟩, ⟨?_, ?_⟩, rfl,
    ⟨?_, ?_, ?_, ?_, ?_⟩, rfl⟩
  all_goals intros
  all_goals first
    | rfl
    | (rename_i h
       simp only [lower, upper]
       rw [rowOf_handle_array, h]
       rfl)
    | (rename_i a
       cases a <;> rfl)
    | (rename_i a b
       cases a <;> cases b <;> rfl)

/-- C6 witness: a null input at each position of a representative two-argument
kernel, applied concretely (the theorem itself is hypothesis-free; this
instantiates its universally quantified parts). -/
theorem c6_null_in_null_out_witness :
    leftRow none (some 2) = none ∧ leftRow (some ['a']) none = none :=
  ⟨c6_null_in_null_out.2.2.2.2.2.2.2.1.1 (some 2),
   c6_null_in_null_out.2.2.2.2.2.2.2.1.2 (some ['a'])⟩

/-! ### Helpers relating the byte-offset slicing of `left`/`right` to the
grapheme decomposition -/

theorem graphemes_split (s : List Char) (k : Nat) :
    s = ((graphemes s).take k).flatten ++ ((graphemes s).drop k).flatten := by
  rw [← List.flatten_append, List.take_append_drop, flatten_graphemes]

theorem utf8Take_at (s P Q : List Char) (i : Nat)
    (hs : s = P ++ Q) (hi : i = utf8StrLen P) : utf8Take s i = P := by
  subst hs; subst hi; exact utf8Take_append P Q

theorem utf8Drop_at (s P Q : List Char) (i : Nat)
    (hs : s = P ++ Q) (hi : i = utf8StrLen P) : utf8Drop s i = Q := by
  subst hs; subst hi; exact utf8Drop_append P Q

/-- C8: every byte offset at which `left`/`right` slice the payload comes from
`grapheme_indices` of the same string, and any such offset splits the UTF-8
payload into the encodings of two strings (the flattened prefix and suffix of
the grapheme decomposition).  Both slices are therefore themselves valid UTF-8
— they are in the range of the encoding function — so the `from_utf8` calls
inside `left` and `right` can never fail.  (The reversed iterator
`grapheme_indices(true).rev()` yields members of the same list, so this covers
every slice both kernels perform.) -/
theorem c8_slices_valid_utf8 (s : List Char) (i : Nat) (g : List Char)
    (h : (i, g) ∈ graphemeIndices s) :
    ∃ t u : List Char,
      utf8Str s = utf8Str t ++ utf8Str u ∧
      (utf8Str s).take i = utf8Str t ∧
      (utf8Str s).drop i = utf8Str u := by
  obtain ⟨k, hk⟩ := List.mem_iff_get?.mp h
  rw [get?_graphemeIndices] at hk
  cases hgg : (graphemes s).get? k with
  | none => rw [hgg] at hk; cases hk
  | some g' =>
    rw [hgg] at hk
    simp only [Option.map_some', Option.some.injEq, Prod.mk.injEq] at hk
    obtain ⟨hi, rfl⟩ := hk
    refine ⟨((graphemes s).take k).flatten, ((graphemes s).drop k).flatten, ?_, ?_, ?_⟩
    · conv_lhs => rw [graphemes_split s k]
      exact utf8Str_append _ _
    · have hsplit : utf8Str s =
          utf8Str ((graphemes s).take k).flatten ++
            utf8Str ((graphemes s).drop k).flatten := by
        conv_lhs => rw [graphemes_split s k]
        exact utf8Str_append _ _
      rw [hsplit, ← hi]
      exact List.take_left _ _
    · have hsplit : utf8Str s =
          utf8Str ((graphemes s).take k).flatten ++
            utf8Str ((graphemes s).drop k).flatten := by
        conv_lhs => rw [graphemes_split s k]
        exact utf8Str_append _ _
      rw [hsplit, ← hi]
      exact List.drop_left _ _

/-- C8 witness: the offset/cluster pair at index 1 of a two-cluster string
containing a multi-byte character. -/
theorem c8_slices_valid_utf8_witness :
    ((2, ['b']) ∈ graphemeIndices ['é', 'b']) ∧
    ∃ t u : List Char,
      utf8Str ['é', 'b'] = utf8Str t ++ utf8Str u ∧
      (utf8Str ['é', 'b']).take 2 = utf8Str t ∧
      (utf8Str ['é', 'b']).drop 2 = utf8Str u :=
  ⟨by decide, c8_slices_valid_utf8 ['é', 'b'] 2 ['b'] (by decide)⟩

theorem left_pos_eq (s : List Char) (n : Int) (h : 0 < n) :
    left s n = ((graphemes s).take n.toNat).flatten := by
  have hne : ¬ n = 0 := by omega
  simp only [left, if_neg hne, if_pos h]
  cases hg : (graphemeIndices s).get? n.toNat with
  | none =>
    have hlen : (graphemeIndices s).length ≤ n.toNat := List.get?_eq_none.mp hg
    rw [length_graphemeIndices] at hlen
    rw [List.take_of_length_le hlen, flatten_graphemes]
  | some p =>
    obtain ⟨i, g⟩ := p
    rw [get?_graphemeIndices] at hg
    cases hgg : (graphemes s).get? n.toNat with
    | none => rw [hgg] at hg; cases hg
    | some g' =>
      rw [hgg] at hg
      simp only [Option.map_some', Option.some.injEq, Prod.mk.injEq] at hg
      exact utf8Take_at s _ _ i (graphemes_split s n.toNat) hg.1.symm

theorem left_neg_eq (s : List Char) (n : Int) (h : n < 0) :
    left s n = ((graphemes s).take ((graphemes s).length - n.natAbs)).flatten := by
  have hne : ¬ n = 0 := by omega
  have hnpos : ¬ 0 < n := by omega
  have habs : 1 ≤ n.natAbs := by omega
  simp only [left, if_neg hne, if_neg hnpos]
  cases hg : (graphemeIndices s).reverse.get? (n.natAbs - 1) with
  | none =>
    have hlen : (graphemeIndices s).reverse.length ≤ n.natAbs - 1 :=
      List.get?_eq_none.mp hg
    rw [List.length_reverse, length_graphemeIndices] at hlen
    have hz : (graphemes s).length - n.natAbs = 0 := by omega
    rw [hz, List.take_zero]
    rfl
  | some p =>
    obtain ⟨i, g⟩ := p
    have hlt : n.natAbs - 1 < (graphemeIndices s).length := by
      rcases Nat.lt_or_ge (n.natAbs - 1) (graphemeIndices s).length with hlt | hge
      · exact hlt
      · exfalso
        have hnone : (graphemeIndices s).reverse.get? (n.natAbs - 1) = none :=
          List.get?_eq_none.mpr (by rw [List.length_reverse]; exact hge)
        rw [hnone] at hg
        cases hg
    rw [List.get?_reverse hlt] at hg
    set k := (graphemeIndices s).length - 1 - (n.natAbs - 1) with hkdef
    rw [get?_graphemeIndices] at hg
    cases hgg : (graphemes s).get? k with
    | none => rw [hgg] at hg; cases hg
    | some g' =>
      rw [hgg] at hg
      simp only [Option.map_some', Option.some.injEq, Prod.mk.injEq] at hg
      have hk2 : k = (graphemes s).length - n.natAbs := by
        have := length_graphemeIndices s
        omega
      rw [← hk2]
      exact utf8Take_at s _ _ i (graphemes_split s k) hg.1.symm

theorem right_pos_eq (s : List Char) (n : Int) (h : 0 < n) :
    right s n = ((graphemes s).drop ((graphemes s).length - n.toNat)).flatten := by
  have hne : ¬ n = 0 := by omega
  have h1 : 1 ≤ n.toNat := by omega
  simp only [right, if_neg hne, if_pos h]
  cases hg : (graphemeIndices s).reverse.get? (n.toNat - 1) with
  | none =>
    have hlen : (graphemeIndices s).reverse.length ≤ n.toNat - 1 :=
      List.get?_eq_none.mp hg
    rw [List.length_reverse, length_graphemeIndices] at hlen
    have hz : (graphemes s).length - n.toNat = 0 := by omega
    rw [hz, List.drop_zero, flatten_graphemes]
  | some p =>
    obtain ⟨i, g⟩ := p
    have hlt : n.toNat - 1 < (graphemeIndices s).length := by
      rcases Nat.lt_or_ge (n.toNat - 1) (graphemeIndices s).length with hlt | hge
      · exact hlt
      · exfalso
        have hnone : (graphemeIndices s).reverse.get? (n.toNat - 1) = none :=
          List.get?_eq_none.mpr (by rw [List.length_reverse]; exact hge)
        rw [hnone] at hg
        cases hg
    rw [List.get?_reverse hlt] at hg
    set k := (graphemeIndices s).length - 1 - (n.toNat - 1) with hkdef
    rw [get?_graphemeIndices] at hg
    cases hgg : (graphemes s).get? k with
    | none => rw [hgg] at hg; cases hg
    | some g' =>
      rw [hgg] at hg
      simp only [Option.map_some', Option.some.injEq, Prod.mk.injEq] at hg
      have hk2 : k = (graphemes s).length - n.toNat := by
        have := length_graphemeIndices s
        omega
      rw [← hk2]
      exact utf8Drop_at s _ _ i (graphemes_split s k) hg.1.symm

theorem right_neg_eq (s : List Char) (n : Int) (h : n < 0) :
    right s n = ((graphemes s).drop n.natAbs).flatten := by
  have hne : ¬ n = 0 := by omega
  have hnpos : ¬ 0 < n := by omega
  simp only [right, if_neg hne, if_neg hnpos]
  cases hg : (graphemeIndices s).get? n.natAbs with
  | none =>
    have hlen : (graphemeIndices s).length ≤ n.natAbs := List.get?_eq_none.mp hg
    rw [length_graphemeIndices] at hlen
    rw [List.drop_eq_nil_of_le hlen]
    rfl
  | some p =>
    obtain ⟨i, g⟩ := p
    rw [get?_graphemeIndices] at hg
    cases hgg : (graphemes s).get? n.natAbs with
    | none => rw [hgg] at hg; cases hg
    | some g' =>
      rw [hgg] at hg
      simp only [Option.map_some', Option.some.injEq, Prod.mk.injEq] at hg
      exact utf8Drop_at s _ _ i (graphemes_split s n.natAbs) hg.1.symm

/-- C4: `left`/`right` sign handling.  `n = 0` gives the empty string;
`n > 0` gives the first (respectively last) `n` grapheme clusters; `n < 0`
gives all but the last (respectively first) `|n|` clusters; and a magnitude
beyond the string's grapheme length clamps to the full string (`n > 0`) or
the empty string (`n < 0`). -/
theorem c4_left_right_sign (s : List Char) (n : Int) :
    (n = 0 → left s n = [] ∧ right s n = []) ∧
    (0 < n → left s n = ((graphemes s).take n.toNat).flatten ∧
      right s n = ((graphemes s).drop ((graphemes s).length - n.toNat)).flatten) ∧
    (n < 0 → left s n = ((graphemes s).take ((graphemes s).length - n.natAbs)).flatten ∧
      right s n = ((graphemes s).drop n.natAbs).flatten) ∧
    (0 < n → (graphemes s).length ≤ n.toNat → left s n = s ∧ right s n = s) ∧
    (n < 0 → (graphemes s).length ≤ n.natAbs → left s n = [] ∧ right s n = []) := by
  refine ⟨?_, ?_, ?_, ?_, ?_⟩
  · rintro rfl
    exact ⟨by simp [left], by simp [right]⟩
  · intro h
    exact ⟨left_pos_eq s n h, right_pos_eq s n h⟩
  · intro h
    exact ⟨left_neg_eq s n h, right_neg_eq s n h⟩
  · intro h hlen
    constructor
    · rw [left_pos_eq s n h, List.take_of_length_le hlen, flatten_graphemes]
    · rw [right_pos_eq s n h]
      have hz : (graphemes s).length - n.toNat = 0 := by omega
      rw [hz, List.drop_zero, flatten_graphemes]
  · intro h hlen
    constructor
    · rw [left_neg_eq s n h]
      have hz : (graphemes s).length - n.natAbs = 0 := by omega
      rw [hz, List.take_zero]
      rfl
    · rw [right_neg_eq s n h, List.drop_eq_nil_of_le hlen]
      rfl

/-- C4 witness: the sign cases at the spec's concrete inputs on `'abcde'`. -/
theorem c4_left_right_sign_witness :
    ((-2 : Int) < 0 ∧
      left ("abcde".toList) (-2) =
        ((graphemes ("abcde".toList)).take
          ((graphemes ("abcde".toList)).length - (-2 : Int).natAbs)).flatten) ∧
    ((0 : Int) < 2 ∧
      left ("abcde".toList) 2 = ((graphemes ("abcde".toList)).take (2 : Int).toNat).flatten) ∧
    ((0 : Int) < 200 ∧ (graphemes ("abcde".toList)).length ≤ (200 : Int).toNat ∧
      right ("abcde".toList) 200 = "abcde".toList) ∧
    ((-200 : Int) < 0 ∧ (graphemes ("abcde".toList)).length ≤ (-200 : Int).natAbs ∧
      left ("abcde".toList) (-200) = []) :=
  ⟨⟨by decide, ((c4_left_right_sign ("abcde".toList) (-2)).2.2.1 (by decide)).1⟩,
   ⟨by decide, ((c4_left_right_sign ("abcde".toList) 2).2.1 (by decide)).1⟩,
   ⟨by decide, by decide,
     ((c4_left_right_sign ("abcde".toList) 200).2.2.2.1 (by decide) (by decide)).2⟩,
   ⟨by decide, by decide,
     ((c4_left_right_sign ("abcde".toList) (-200)).2.2.2.2 (by decide) (by decide)).1⟩⟩

theorem usizeOfI64_coe (n : Nat) (h : n < 2 ^ 64) : usizeOfI64 (n : Int) = n := by
  unfold usizeOfI64
  rw [Int.emod_eq_of_lt (Int.natCast_nonneg n) (by exact_mod_cast h)]
  exact Int.toNat_natCast n

theorem cyclicFill_zero (fill : List Char) : cyclicFill fill 0 = [] := rfl

/-- C5: `lpad`/`rpad` edge cases.  Target length `0` yields the empty string;
a string already at least `length` graphemes long is truncated to its first
`length` graphemes (left-biased for both pad directions); the 2-argument
forms pad with spaces; the 3-argument forms return the string unpadded when
the fill is empty, and otherwise repeat the fill cyclically to exactly fill
the gap. -/
theorem c5_pad_cases (s fill : List Char) (n : Nat) (hn : n < 2 ^ 64) :
    (lpad2 s 0 = [] ∧ lpad3 s 0 fill = [] ∧ rpad2 s 0 = [] ∧ rpad3 s 0 fill = []) ∧
    (n ≤ (graphemes s).length →
      lpad2 s (n : Int) = ((graphemes s).take n).flatten ∧
      rpad2 s (n : Int) = ((graphemes s).take n).flatten ∧
      lpad3 s (n : Int) fill = ((graphemes s).take n).flatten ∧
      rpad3 s (n : Int) fill = ((graphemes s).take n).flatten) ∧
    ((graphemes s).length ≤ n →
      lpad2 s (n : Int) = List.replicate (n - (graphemes s).length) ' ' ++ s ∧
      rpad2 s (n : Int) = s ++ List.replicate (n - (graphemes s).length) ' ') ∧
    ((graphemes s).length ≤ n →
      lpad3 s (n : Int) [] = s ∧ rpad3 s (n : Int) [] = s) ∧
    ((graphemes s).length ≤ n → fill ≠ [] →
      lpad3 s (n : Int) fill = cyclicFill fill (n - (graphemes s).length) ++ s ∧
      rpad3 s (n : Int) fill = s ++ cyclicFill fill (n - (graphemes s).length)) := by
  have hu : usizeOfI64 (n : Int) = n := usizeOfI64_coe n hn
  have hs_of_len0 : (graphemes s).length = 0 → s = [] := fun h =>
    (graphemes_eq_nil_iff s).mp (List.length_eq_zero.mp h)
  refine ⟨⟨rfl, rfl, rfl, ?_⟩, ?_, ?_, ?_, ?_⟩
  · rcases hgs : graphemes s with _ | ⟨g, gs⟩
    · have hs : s = [] := (graphemes_eq_nil_iff s).mp hgs
      subst hs
      cases hfe : fill.isEmpty <;> simp [rpad3, usizeOfI64, hfe, cyclicFill]
    · simp [rpad3, usizeOfI64, hgs]
  · intro hle
    refine ⟨?_, ?_, ?_, ?_⟩
    · simp only [lpad2, hu]
      by_cases h0 : n = 0
      · subst h0; simp
      · rw [if_neg h0]
        by_cases hlt : n < (graphemes s).length
        · rw [if_pos hlt]
        · rw [if_neg hlt]
          have he : n = (graphemes s).length := by omega
          rw [he, Nat.sub_self, List.replicate_zero, List.nil_append,
            List.take_length, flatten_graphemes]
    · simp only [rpad2, hu]
      by_cases h0 : n = 0
      · subst h0; simp
      · rw [if_neg h0]
        by_cases hlt : n < (graphemes s).length
        · rw [if_pos hlt]
        · rw [if_neg hlt]
          have he : n = (graphemes s).length := by omega
          rw [he, Nat.sub_self, List.replicate_zero, List.append_nil,
            List.take_length, flatten_graphemes]
    · simp only [lpad3, hu]
      by_cases h0 : n = 0
      · subst h0; simp
      · rw [if_neg h0]
        by_cases hlt : n < (graphemes s).length
        · rw [if_pos hlt]
        · rw [if_neg hlt]
          have he : n = (graphemes s).length := by omega
          cases hfe : fill.isEmpty
          · rw [if_neg (by simp [hfe])]
            rw [he, Nat.sub_self, cyclicFill_zero, List.nil_append,
              List.take_length, flatten_graphemes]
          · rw [if_pos (by simp_all)]
            rw [he, List.take_length, flatten_graphemes]
    · simp only [rpad3, hu]
      by_cases hlt : n < (graphemes s).length
      · rw [if_pos hlt]
      · rw [if_neg hlt]
        have he : n = (graphemes s).length := by omega
        cases hfe : fill.isEmpty
        · rw [if_neg (by simp [hfe])]
          rw [he, Nat.sub_self, cyclicFill_zero, List.append_nil,
            List.take_length, flatten_graphemes]
        · rw [if_pos (by simp_all)]
          rw [he, List.take_length, flatten_graphemes]
  · intro hle
    constructor
    · simp only [lpad2, hu]
      by_cases h0 : n = 0
      · subst h0
        have hs : s = [] := hs_of_len0 (by omega)
        subst hs
        simp
      · rw [if_neg h0, if_neg (by omega)]
    · simp only [rpad2, hu]
      by_cases h0 : n = 0
      · subst h0
        have hs : s = [] := hs_of_len0 (by omega)
        subst hs
        simp
      · rw [if_neg h0, if_neg (by omega)]
  · intro hle
    constructor
    · simp only [lpad3, hu]
      by_cases h0 : n = 0
      · subst h0
        have hs : s = [] := hs_of_len0 (by omega)
        subst hs
        simp
      · rw [if_neg h0, if_neg (by omega)]
        simp
    · simp only [rpad3, hu]
      rw [if_neg (by omega)]
      simp
  · intro hle hfill
    constructor
    · simp only [lpad3, hu]
      by_cases h0 : n = 0
      · subst h0
        have hs : s = [] := hs_of_len0 (by omega)
        subst hs
        simp [cyclicFill]
      · rw [if_neg h0, if_neg (by omega),
          if_neg (by simpa [List.isEmpty_iff] using hfill)]
    · simp only [rpad3, hu]
      rw [if_neg (by omega), if_neg (by simpa [List.isEmpty_iff] using hfill)]

/-- C5 witness: the spec's concrete pad examples, via the theorem. -/
theorem c5_pad_cases_witness :
    (lpad2 ("hi".toList) 0 = []) ∧
    ((3 : Nat) ≤ (graphemes ("xyxhi".toList)).length ∧
      lpad2 ("xyxhi".toList) ((3 : Nat) : Int) =
        ((graphemes ("xyxhi".toList)).take 3).flatten) ∧
    ((graphemes ("hi".toList)).length ≤ (21 : Nat) ∧ ("abcdef".toList) ≠ [] ∧
      rpad3 ("hi".toList) ((21 : Nat) : Int) ("abcdef".toList) =
        "hi".toList ++ cyclicFill ("abcdef".toList) (21 - (graphemes ("hi".toList)).length)) :=
  ⟨(c5_pad_cases ("hi".toList) [] 0 (by norm_num)).1.1,
   ⟨by decide,
     ((c5_pad_cases ("xyxhi".toList) [] 3 (by norm_num)).2.1 (by decide)).1⟩,
   ⟨by decide, by decide,
     ((c5_pad_cases ("hi".toList) ("abcdef".toList) 21 (by norm_num)).2.2.2.2
       (by decide) (by decide)).2⟩⟩

theorem graphemes_cons_head (c : Char) (rest : List Char) :
    ∃ t gs, graphemes (c :: rest) = (c :: t) :: gs := by
  rw [graphemes]
  rcases graphemes rest with _ | ⟨_ | ⟨d, g⟩, gs⟩
  · exact ⟨[], [], rfl⟩
  · exact ⟨[], gs, rfl⟩
  · by_cases hd : isCombining d = true
    · refine ⟨d :: g, gs, ?_⟩
      simp [hd]
    · refine ⟨[], (d :: g) :: gs, ?_⟩
      simp [hd]

theorem mem_tail_graphemes_head (s : List Char) :
    ∀ g ∈ (graphemes s).tail, ∃ d t, g = d :: t ∧ isCombining d = false := by
  induction s with
  | nil => simp [graphemes]
  | cons c rest ih =>
    rw [graphemes]
    rcases hrest : graphemes rest with _ | ⟨g0, gs⟩
    · simp
    · rw [hrest] at ih
      cases g0 with
      | nil =>
        intro g hg
        exact ih g hg
      | cons d g0' =>
        by_cases hd : isCombining d = true
        · simp only [hd, if_true]
          intro g hg
          exact ih g hg
        · simp only [hd, if_false, List.tail_cons]
          rintro g hg
          rcases List.mem_cons.mp hg with rfl | hg'
          · exact ⟨d, g0', rfl, by simpa using hd⟩
          · exact ih g hg'

theorem tail_combining_graphemes (s : List Char) :
    ∀ g ∈ graphemes s, ∀ c ∈ g.tail, isCombining c = true := by
  induction s with
  | nil => simp [graphemes]
  | cons c rest ih =>
    rw [graphemes]
    rcases hrest : graphemes rest with _ | ⟨g0, gs⟩
    · intro g hg
      simp only [List.mem_singleton] at hg
      subst hg
      simp
    · rw [hrest] at ih
      cases g0 with
      | nil =>
        intro g hg
        rcases List.mem_cons.mp hg with rfl | hg'
        · simp
        · exact ih g (List.mem_cons_of_mem _ hg')
      | cons d g0' =>
        by_cases hd : isCombining d = true
        · simp only [hd, if_true]
          intro g hg
          rcases List.mem_cons.mp hg with rfl | hg'
          · intro x hx
            rcases List.mem_cons.mp (by simpa using hx) with rfl | hx'
            · exact hd
            · exact ih (d :: g0') (List.mem_cons_self _ _) x (by simpa using hx')
          · exact ih g (List.mem_cons_of_mem _ hg')
        · simp only [hd, if_false]
          intro g hg
          rcases List.mem_cons.mp hg with rfl | hg'
          · simp
          · exact ih g hg'

theorem graphemes_cluster_append (t rest : List Char)
    (hok : headsOk (graphemes rest)) :
    ∀ d, (∀ c ∈ t, isCombining c = true) →
      graphemes (d :: (t ++ rest)) = (d :: t) :: graphemes rest := by
  induction t with
  | nil =>
    intro d _
    rw [List.nil_append, graphemes]
    rcases hrest' : graphemes rest with _ | ⟨g0, gs⟩
    · rfl
    · rw [hrest'] at hok
      obtain ⟨e, u, rfl, he⟩ := hok
      simp [he]
  | cons c t' ih =>
    intro d ht
    have hc : isCombining c = true := ht c (List.mem_cons_self _ _)
    have hrec := ih c fun x hx => ht x (List.mem_cons_of_mem _ hx)
    rw [List.cons_append, graphemes, hrec]
    simp [hc]

theorem graphemes_flatten_of_wf (L : List (List Char))
    (hwf : ∀ g ∈ L, ∃ d t, g = d :: t ∧ isCombining d = false ∧
      ∀ c ∈ t, isCombining c = true) :
    graphemes L.flatten = L := by
  induction L with
  | nil => rfl
  | cons g L' ih =>
    obtain ⟨d, t, rfl, hd, ht⟩ := hwf _ (List.mem_cons_self _ _)
    have hih : graphemes L'.flatten = L' :=
      ih fun g hg => hwf g (List.mem_cons_of_mem _ hg)
    have hok : headsOk (graphemes L'.flatten) := by
      rw [hih]
      cases L' with
      | nil => trivial
      | cons g0 L'' =>
        obtain ⟨e, u, rfl, he, _⟩ := hwf g0 (by simp)
        exact ⟨e, u, rfl, he⟩
    show graphemes ((d :: t) ++ L'.flatten) = (d :: t) :: L'
    rw [List.cons_append, graphemes_cluster_append t L'.flatten hok d ht, hih]

theorem graphemes_wf (s : List Char) (h : headNotCombining s = true) :
    ∀ g ∈ graphemes s, ∃ d t, g = d :: t ∧ isCombining d = false ∧
      ∀ c ∈ t, isCombining c = true := by
  cases s with
  | nil => simp [graphemes]
  | cons c rest =>
    intro g hg
    obtain ⟨t0, gs0, heq⟩ := graphemes_cons_head c rest
    rw [heq] at hg
    rcases List.mem_cons.mp hg with rfl | hg'
    · refine ⟨c, t0, rfl, ?_, ?_⟩
      · simpa [headNotCombining] using h
      · have := tail_combining_graphemes (c :: rest) (c :: t0)
          (by rw [heq]; exact List.mem_cons_self _ _)
        simpa using this
    · obtain ⟨d, t, rfl, hd⟩ :=
        mem_tail_graphemes_head (c :: rest) g (by rw [heq]; simpa using hg')
      refine ⟨d, t, rfl, hd, ?_⟩
      have := tail_combining_graphemes (c :: rest) (d :: t)
        (by rw [heq]; exact List.mem_cons_of_mem _ hg')
      simpa using this

theorem toAsciiUpper_idem (c : Char) :
    toAsciiUpper (toAsciiUpper c) = toAsciiUpper c := by
  unfold toAsciiUpper
  by_cases h : 97 ≤ c.toNat ∧ c.toNat ≤ 122
  · rw [if_pos h]
    have hv : (c.toNat - 32).isValidChar := Or.inl (by omega)
    rw [toNat_ofNat_of_valid hv, if_neg (by omega)]
  · rw [if_neg h, if_neg h]

theorem upperStr_idem (s : List Char) : upperStr (upperStr s) = upperStr s := by
  induction s with
  | nil => rfl
  | cons c cs ih =>
    simp only [upperStr, List.map_cons] at ih ⊢
    rw [toAsciiUpper_idem]
    exact congrArg _ (by simpa [upperStr] using ih)

/-- C9 counterexample: `reverse` is not an involution on the code.  The string
`U+0301 'a'` (a defective combining sequence: a combining acute accent
followed by `a`) has clusters `[´] [a]`; one reversal gives `a U+0301`, which
re-segments as the single cluster `á`, so the second reversal returns
`a U+0301` and not the original string. -/
theorem c9_reverse_involution_counterexample :
    reverseStr (reverseStr [Char.ofNat 0x301, 'a']) ≠ [Char.ofNat 0x301, 'a'] := by
  decide

/-- C9 (amended): `upper` is idempotent for every string.  `reverse` is an
involution only on a restricted domain: every string made of `modelledChar`
characters (printable ASCII plus combining diacritical marks — the fragment
on which the modelled segmentation coincides with full UAX #29) that does
not begin with a combining mark.  The counterexample above (inside that
fragment) forces the leading-combining-mark proviso; outside the fragment
other UAX #29 classes the model omits (regional indicators, Hangul jamo,
CR LF, the wider `Extend` set) can independently break the involution, so
the involution part is not asserted there. -/
theorem c9_upper_idem_reverse_involution (s : List Char) :
    upperStr (upperStr s) = upperStr s ∧
    (s.all modelledChar = true → headNotCombining s = true →
      reverseStr (reverseStr s) = s) := by
  refine ⟨upperStr_idem s, ?_⟩
  intro _ h
  have hwf := graphemes_wf s h
  unfold reverseStr
  have hwf' : ∀ g ∈ (graphemes s).reverse, ∃ d t, g = d :: t ∧
      isCombining d = false ∧ ∀ c ∈ t, isCombining c = true :=
    fun g hg => hwf g (List.mem_reverse.mp hg)
  rw [graphemes_flatten_of_wf _ hwf', List.reverse_reverse, flatten_graphemes]

/-- C9 witness: the amended involution at the spec's grapheme example
`'loẅks'` written with a decomposed `w`+U+0308 (an interior combining
diaeresis, all characters in the modelled fragment), plus idempotence at a
concrete string. -/
theorem c9_upper_idem_reverse_involution_witness :
    upperStr (upperStr ("Tom".toList)) = upperStr ("Tom".toList) ∧
    (['l', 'o', 'w', Char.ofNat 0x308, 'k', 's'].all modelledChar = true ∧
      headNotCombining ['l', 'o', 'w', Char.ofNat 0x308, 'k', 's'] = true ∧
      reverseStr (reverseStr ['l', 'o', 'w', Char.ofNat 0x308, 'k', 's']) =
        ['l', 'o', 'w', Char.ofNat 0x308, 'k', 's']) :=
  ⟨(c9_upper_idem_reverse_involution ("Tom".toList)).1,
   ⟨by decide, by decide,
    (c9_upper_idem_reverse_involution ['l', 'o', 'w', Char.ofNat 0x308, 'k', 's']).2
      (by decide) (by decide)⟩⟩

end StringExpr
